import Mathlib

/-
  Verification development for the patent-CSV merge engine
  (src/merger2.c and src/code3.c).

  Strings are modelled as lists of characters (Str).  Each definition below
  is a shallow embedding of the C function of the same name; the doc comment
  of each definition names the source function it embeds.
-/

namespace MergeEngine

/-- A C string, modelled as a list of characters. -/
abbrev Str := List Char

/-- merger2.c trim_eol: strip all trailing LF and CR characters. -/
def trim_eol (s : Str) : Str :=
  (s.reverse.dropWhile (fun c => c = '\n' || c = '\r')).reverse

/-- merger2.c parse_delim_line, main loop.  State: remaining input,
inQuotes flag, current field buffer.  On a quote in quoted mode, a doubled
quote emits one literal quote, otherwise quoted mode ends; in unquoted mode
a quote enters quoted mode, the delimiter ends the field, and any other
character is appended to the buffer.  At end of input the buffer is pushed
as the final field. -/
def parse_loop (delim : Char) : List Char → Bool → Str → List Str
  | [], _, buf => [buf]
  | c :: rest, true, buf =>
    if c = '"' then
      match rest with
      | '"' :: rest2 => parse_loop delim rest2 true (buf ++ ['"'])
      | [] => parse_loop delim [] false buf
      | c2 :: rest2 => parse_loop delim (c2 :: rest2) false buf
    else
      parse_loop delim rest true (buf ++ [c])
  | c :: rest, false, buf =>
    if c = '"' then parse_loop delim rest true buf
    else if c = delim then buf :: parse_loop delim rest false []
    else parse_loop delim rest false (buf ++ [c])

theorem parse_loop_nil (delim : Char) (q : Bool) (buf : Str) :
    parse_loop delim [] q buf = [buf] := by
  cases q <;> simp [parse_loop]

theorem parse_loop_in_qq (delim : Char) (r : List Char) (buf : Str) :
    parse_loop delim ('"' :: '"' :: r) true buf = parse_loop delim r true (buf ++ ['"']) := by
  simp [parse_loop]

theorem parse_loop_in_close_nil (delim : Char) (buf : Str) :
    parse_loop delim ['"'] true buf = [buf] := by
  rw [parse_loop, if_pos rfl, parse_loop]

theorem parse_loop_in_close (delim : Char) (c : Char) (r : List Char) (buf : Str)
    (hc : c ≠ '"') :
    parse_loop delim ('"' :: c :: r) true buf = parse_loop delim (c :: r) false buf := by
  simp [parse_loop, hc]

theorem parse_loop_in_chr (delim : Char) (c : Char) (r : List Char) (buf : Str)
    (hc : c ≠ '"') :
    parse_loop delim (c :: r) true buf = parse_loop delim r true (buf ++ [c]) := by
  rw [parse_loop.eq_def]
  simp only [if_neg hc]

theorem parse_loop_out_quote (delim : Char) (r : List Char) (buf : Str) :
    parse_loop delim ('"' :: r) false buf = parse_loop delim r true buf := by
  simp [parse_loop]

theorem parse_loop_out_delim (delim : Char) (r : List Char) (buf : Str)
    (hd : delim ≠ '"') :
    parse_loop delim (delim :: r) false buf = buf :: parse_loop delim r false [] := by
  simp [parse_loop, hd]

theorem parse_loop_out_chr (delim : Char) (c : Char) (r : List Char) (buf : Str)
    (hq : c ≠ '"') (hd : c ≠ delim) :
    parse_loop delim (c :: r) false buf = parse_loop delim r false (buf ++ [c]) := by
  simp [parse_loop, hq, hd]

/-- merger2.c parse_delim_line: split one line into fields for a given
delimiter, honoring quotes and doubled-quote escapes. -/
def parse_delim_line (line : Str) (delim : Char) : List Str :=
  parse_loop delim line false []

/-- code3.c print_csv_field, scan deciding whether quoting is needed:
true iff the value contains the output delimiter, a quote, LF or CR. -/
def needs_quotes (s : Str) : Bool :=
  s.any (fun c => c = ',' || c = '"' || c = '\n' || c = '\r')

/-- code3.c print_csv_field, quoted-emission loop: every quote character is
emitted doubled, all other characters verbatim. -/
def escape_quotes (s : Str) : Str :=
  s.flatMap (fun c => if c = '"' then ['"', '"'] else [c])

/-- code3.c print_csv_field: the exact character sequence the function
writes for a (non-NULL) value s. -/
def print_csv_field (s : Str) : Str :=
  if needs_quotes s then '"' :: (escape_quotes s ++ ['"']) else s

/-- Independent decoder for the doubled-quote escape: collapses every
doubled quote back to a single quote. -/
def unescape_quotes : Str → Str
  | [] => []
  | [c] => [c]
  | c :: d :: rest =>
    if c = '"' && d = '"' then '"' :: unescape_quotes rest
    else c :: unescape_quotes (d :: rest)

theorem escape_quotes_nil_iff (s : Str) : escape_quotes s = [] ↔ s = [] := by
  cases s with
  | nil => simp [escape_quotes]
  | cons c r =>
    simp only [escape_quotes, List.flatMap_cons]
    constructor
    · intro h
      by_cases hc : c = '"' <;> simp [hc] at h
    · intro h; cases h

theorem unescape_escape (s : Str) : unescape_quotes (escape_quotes s) = s := by
  induction s with
  | nil => rfl
  | cons c rest ih =>
    by_cases hc : c = '"'
    · subst hc
      have hesc : escape_quotes ('"' :: rest) = '"' :: '"' :: escape_quotes rest := by
        simp [escape_quotes]
      rw [hesc]
      cases hr : escape_quotes rest with
      | nil => simp_all [unescape_quotes, escape_quotes_nil_iff]
      | cons d t => rw [← hr, unescape_quotes, if_pos (by simp), ih]
    · have hesc : escape_quotes (c :: rest) = c :: escape_quotes rest := by
        simp [escape_quotes, hc]
      rw [hesc]
      cases hr : escape_quotes rest with
      | nil =>
        have : rest = [] := (escape_quotes_nil_iff rest).mp hr
        subst this
        simp [unescape_quotes]
      | cons d t =>
        rw [unescape_quotes, if_neg (by simp [hc]), ← hr, ih]

/-- Parsing in quoted mode through the escaped body of a field and its
closing quote recovers the original body appended to the buffer. -/
theorem parse_loop_quoted (delim : Char) (s : Str) :
    ∀ buf, parse_loop delim (escape_quotes s ++ ['"']) true buf = [buf ++ s] := by
  induction s with
  | nil =>
    intro buf
    simpa [escape_quotes] using parse_loop_in_close_nil delim buf
  | cons c rest ih =>
    intro buf
    by_cases hc : c = '"'
    · subst hc
      have : escape_quotes ('"' :: rest) ++ ['"']
          = '"' :: '"' :: (escape_quotes rest ++ ['"']) := by
        simp [escape_quotes]
      rw [this, parse_loop_in_qq, ih]
      simp
    · have : escape_quotes (c :: rest) ++ ['"'] = c :: (escape_quotes rest ++ ['"']) := by
        simp [escape_quotes, hc]
      rw [this, parse_loop_in_chr delim c _ buf hc, ih]
      simp

/-- Parsing in unquoted mode a string free of quotes and delimiters
yields a single field: the buffer followed by the string. -/
theorem parse_loop_raw (delim : Char) (s : Str)
    (hq : ¬ '"' ∈ s) (hd : ¬ delim ∈ s) :
    ∀ buf, parse_loop delim s false buf = [buf ++ s] := by
  induction s with
  | nil => intro buf; simp [parse_loop_nil]
  | cons c rest ih =>
    intro buf
    simp only [List.mem_cons, not_or] at hq hd
    rw [parse_loop_out_chr delim c rest buf (fun h => hq.1 h.symm) (fun h => hd.1 h.symm)]
    rw [ih hq.2 hd.2]
    simp

/-- needs_quotes is the claimed characterization: the value contains the
output delimiter, a quote character, or a newline (LF or CR). -/
theorem needs_quotes_iff (s : Str) :
    needs_quotes s = true ↔ (',' ∈ s ∨ '"' ∈ s ∨ '\n' ∈ s ∨ '\r' ∈ s) := by
  simp only [needs_quotes, List.any_eq_true]
  constructor
  · rintro ⟨c, hc, h⟩
    simp only [Bool.or_eq_true, decide_eq_true_eq] at h
    rcases h with ((h | h) | h) | h <;> subst h <;> tauto
  · rintro (h | h | h | h) <;> exact ⟨_, h, by simp⟩

/-- C7: writing any string as one output field with the code3 quoting rule
and re-parsing the result with the merger2 line parser at the output
delimiter recovers exactly that one field. -/
theorem c7_field_roundtrip (s : Str) :
    parse_delim_line (print_csv_field s) ',' = [s] := by
  unfold print_csv_field parse_delim_line
  by_cases h : needs_quotes s = true
  · rw [if_pos h, parse_loop_out_quote, parse_loop_quoted]
    simp
  · rw [if_neg h]
    have hmem := (not_congr (needs_quotes_iff s)).mp h
    push_neg at hmem
    rw [parse_loop_raw ',' s hmem.2.1 hmem.1]
    simp

/-- merger2.c hmap_get: walk the chain, return the value of the first entry
whose key compares equal.  The chained hash table is modelled as an
association list; hashing only partitions chains and does not affect
lookup results. -/
def hmap_get {α : Type} (m : List (Str × α)) (k : Str) : Option α :=
  match m with
  | [] => none
  | e :: rest => if e.1 = k then some e.2 else hmap_get rest k

/-- merger2.c hmap_put: overwrite the value of an existing entry with an
equal key, otherwise add a new entry for the key. -/
def hmap_put {α : Type} (m : List (Str × α)) (k : Str) (v : α) : List (Str × α) :=
  match m with
  | [] => [(k, v)]
  | e :: rest => if e.1 = k then (k, v) :: rest else e :: hmap_put rest k v

theorem hmap_get_nil {α : Type} (k : Str) : hmap_get ([] : List (Str × α)) k = none := rfl

theorem hmap_get_cons {α : Type} (e : Str × α) (rest : List (Str × α)) (k : Str) :
    hmap_get (e :: rest) k = if e.1 = k then some e.2 else hmap_get rest k := rfl

theorem hmap_put_nil {α : Type} (k : Str) (v : α) :
    hmap_put ([] : List (Str × α)) k v = [(k, v)] := rfl

theorem hmap_put_cons {α : Type} (e : Str × α) (rest : List (Str × α)) (k : Str) (v : α) :
    hmap_put (e :: rest) k v = if e.1 = k then (k, v) :: rest else e :: hmap_put rest k v := rfl

theorem hmap_get_isSome_iff {α : Type} (m : List (Str × α)) (k : Str) :
    (hmap_get m k).isSome = true ↔ k ∈ m.map Prod.fst := by
  induction m with
  | nil =>
    rw [hmap_get_nil]
    simp only [Option.isSome_none, List.map_nil, List.not_mem_nil, iff_false]
    exact fun h => by cases h
  | cons e rest ih =>
    rw [hmap_get_cons]
    by_cases h : e.1 = k
    · rw [if_pos h]
      simp only [Option.isSome_some, List.map_cons, List.mem_cons, true_iff]
      exact Or.inl h.symm
    · rw [if_neg h]
      simp only [List.map_cons, List.mem_cons, ih]
      constructor
      · intro hx; exact Or.inr hx
      · rintro (hx | hx)
        · exact absurd hx.symm h
        · exact hx

theorem hmap_put_keys {α : Type} (m : List (Str × α)) (k : Str) (v : α) :
    ∀ x, x ∈ (hmap_put m k v).map Prod.fst ↔ (x = k ∨ x ∈ m.map Prod.fst) := by
  induction m with
  | nil =>
    intro x
    rw [hmap_put_nil]
    simp only [List.map_cons, List.map_nil, List.mem_cons, List.not_mem_nil, or_false]
  | cons e rest ih =>
    intro x
    by_cases h : e.1 = k
    · rw [hmap_put_cons, if_pos h]
      simp only [List.map_cons, List.mem_cons]
      rw [← h]
      tauto
    · rw [hmap_put_cons, if_neg h]
      simp only [List.map_cons, List.mem_cons, ih x]
      tauto

/-- merger2.c FileStore: one loaded input file.  nrows and the row arrays
ids and cells are modelled as lists (so nrows is ids.length); id_to_idx is
the key to row-index hash map. -/
structure FileStore where
  path : Str
  delim : Char
  id_col : Nat
  is_claim : Bool
  claim_year : Nat
  cols : List Str
  n_nonid : Nat
  ids : List Str
  cells : List (List (Option Str))
  id_to_idx : List (Str × Nat)
deriving Repr, DecidableEq

/-- merger2.c MERGE_SEP. -/
def merge_sep : Str := " || ".toList

/-- merger2.c append_cell_merge: an empty (or NULL) incoming value leaves
the cell unchanged; a non-empty value becomes the content of an empty
(NULL) cell, and is appended to a non-empty cell after MERGE_SEP. -/
def append_cell_merge (dst : Option Str) (src : Str) : Option Str :=
  if src = [] then dst
  else
    match dst with
    | none => some src
    | some d => some (d ++ merge_sep ++ src)

/-- merger2.c load_file, inner per-row merge loop: the k-th non-key field
is merged into the k-th cell while k is below n_nonid (the cell row length);
missing trailing fields leave their cells untouched, surplus fields are
dropped. -/
def merge_row_cells : List (Option Str) → List Str → List (Option Str)
  | [], _ => []
  | cs, [] => cs
  | c :: cs, v :: vs => append_cell_merge c v :: merge_row_cells cs vs

/-- merger2.c filestore_add_row: append a fresh row (key copy plus n_nonid
NULL cells) and record its index in id_to_idx. -/
def filestore_add_row (fs : FileStore) (id : Str) : FileStore × Nat :=
  let idx := fs.ids.length
  ({ fs with
      ids := fs.ids ++ [id]
      cells := fs.cells ++ [List.replicate fs.n_nonid none]
      id_to_idx := hmap_put fs.id_to_idx id idx }, idx)

/-- merger2.c filestore_get_or_create: reuse the indexed row for a known
key, create a row otherwise. -/
def filestore_get_or_create (fs : FileStore) (id : Str) : FileStore × Nat :=
  match hmap_get fs.id_to_idx id with
  | some v => (fs, v)
  | none => filestore_add_row fs id

/-- merger2.c load_file, body of the data-line loop after parsing: skip
rows with zero fields or with the key column out of range; otherwise look
up or create the row for the key field (whatever it is, including the
empty string) and merge the non-key fields into its cells. -/
def load_row (fs : FileStore) (fields : List Str) : FileStore :=
  if fields.length = 0 then fs
  else if fields.length ≤ fs.id_col then fs
  else
    let id := fields.getD fs.id_col []
    let p := filestore_get_or_create fs id
    { p.1 with
        cells := p.1.cells.set p.2 (merge_row_cells (p.1.cells.getD p.2 []) (fields.eraseIdx fs.id_col)) }

/-- merger2.c load_file, one iteration of the fgets loop: trim the CR/LF
tail, skip blank lines, parse with the detected delimiter and process the
row. -/
def load_data_line (fs : FileStore) (rawline : Str) : FileStore :=
  let line := trim_eol rawline
  if line = [] then fs
  else load_row fs (parse_delim_line line fs.delim)

/-- C strstr: find the first occurrence of the needle in the haystack and
return the haystack suffix that starts right after that occurrence
(strstr itself returns a pointer to the occurrence; every caller here
advances past the needle, so the advanced suffix is returned directly). -/
def strstr_drop (hay pat : Str) : Option Str :=
  if pat.isPrefixOf hay then some (hay.drop pat.length)
  else
    match hay with
    | [] => none
    | _ :: t => strstr_drop t pat

/-- merger2.c detect_id_col helper: the 512-byte snprintf copy of a header
name, lowercased in place. -/
def lower512 (s : Str) : Str := (s.take 511).map Char.toLower

/-- merger2.c detect_id_col, second loop: return the first column whose
lowercased name contains both of a pair of substrings per the patent rule;
remember the first app-and-number match as a fallback, used only if the
loop finishes, else column 0. -/
def detect_id_col_fallback : List Str → Nat → Option Nat → Nat
  | [], _, best => best.getD 0
  | c :: rest, i, best =>
    let b := lower512 c
    if ((strstr_drop b "patent".toList).isSome
        && ((strstr_drop b "number".toList).isSome || (strstr_drop b "id".toList).isSome)) then i
    else
      detect_id_col_fallback rest (i + 1)
        (if ((strstr_drop b "app".toList).isSome && (strstr_drop b "number".toList).isSome)
            && best.isNone then some i else best)

/-- merger2.c detect_id_col: first a pass returning the first column whose
lowercased name contains application_number, then the patent/app fallback
pass, defaulting to column 0. -/
def detect_id_col (cols : List Str) : Nat :=
  match cols.findIdx? (fun c => (strstr_drop (lower512 c) "application_number".toList).isSome) with
  | some i => i
  | none => detect_id_col_fallback cols 0 none

/-- merger2.c load_file, delimiter sniffing on the header line: tab wins
only when the header contains a tab and no comma. -/
def detect_delim (header : Str) : Char :=
  if header.contains '\t' && !(header.contains ',') then '\t' else ','

/-- merger2.c file_stem: basename after the last path separator, with the
final extension removed, truncated to the destination buffer size. -/
def file_stem (path : Str) (outsz : Nat) : Str :=
  let base := (path.reverse.takeWhile (fun c => c ≠ '/')).reverse
  let stem := if base.contains '.' then ((base.reverse.dropWhile (fun c => c ≠ '.')).drop 1).reverse else base
  stem.take (outsz - 1)

/-- merger2.c parse_claim_year_from_name, digit loop: accumulate decimal
digits while fewer than four digits have been read and the next character
is a digit. -/
def year_loop : Str → Nat → Nat → Nat
  | _, 0, y => y
  | [], _ + 1, y => y
  | c :: rest, n + 1, y =>
    if c.isDigit then year_loop rest n (y * 10 + (c.toNat - '0'.toNat)) else y

/-- merger2.c parse_claim_year_from_name, the scan over the lowercased
stem: find claims_, require a digit right after it, then run the digit
loop (which reads at most four digits). -/
def claim_year_scan (stem : Str) : Nat :=
  match strstr_drop stem "claims_".toList with
  | none => 0
  | some p =>
    match p with
    | [] => 0
    | c :: _ => if c.isDigit then year_loop p 4 0 else 0

/-- merger2.c parse_claim_year_from_name: stem the path into the 512-byte
buffer, lowercase it, scan for the claims_ year. -/
def parse_claim_year_from_name (path : Str) : Nat :=
  claim_year_scan ((file_stem path 512).map Char.toLower)

/-- merger2.c filestore_init: zeroed store with a comma delimiter. -/
def filestore_init (path : Str) : FileStore :=
  { path := path, delim := ',', id_col := 0, is_claim := false, claim_year := 0,
    cols := [], n_nonid := 0, ids := [], cells := [], id_to_idx := [] }

/-- merger2.c load_file on an opened file given as its list of raw lines:
an empty file yields the fresh store; otherwise the header line fixes the
delimiter, the claim category, the column names, the key column and the
non-key width, and every further line goes through the data-line loop. -/
def load_file_content (path : Str) (lines : List Str) : FileStore :=
  let fs0 := filestore_init path
  match lines with
  | [] => fs0
  | rawHeader :: dataLines =>
    let header := trim_eol rawHeader
    let delim := detect_delim header
    let year := parse_claim_year_from_name path
    let cols := parse_delim_line header delim
    let fs1 : FileStore :=
      { fs0 with
          delim := delim, claim_year := year, is_claim := year > 0, cols := cols,
          id_col := detect_id_col cols,
          n_nonid := if cols.length > 0 then cols.length - 1 else 0 }
    dataLines.foldl load_data_line fs1

/-- merger2.c build_eligible_ids, claims-union pass: fold every claims
table's keys into one hash map (value -1 unused). -/
def claims_union (fss : List FileStore) : List (Str × Int) :=
  fss.foldl
    (fun m fs => if fs.is_claim then fs.ids.foldl (fun m2 id => hmap_put m2 id (-1)) m else m)
    []

/-- merger2.c build_eligible_ids, have_claims flag: some table is a claims
table. -/
def have_claims (fss : List FileStore) : Bool := fss.any (fun fs => fs.is_claim)

/-- merger2.c build_eligible_ids, base-table pass, loop body: a claims
table never changes the candidate; a primary table becomes the candidate
when there is none yet or when its row count is strictly smaller. -/
def base_best (fs : FileStore) (i : Nat) (best : Option (Nat × Nat)) : Option (Nat × Nat) :=
  if fs.is_claim then best
  else
    match best with
    | none => some (i, fs.ids.length)
    | some (b, bn) => if fs.ids.length < bn then some (i, fs.ids.length) else some (b, bn)

/-- merger2.c build_eligible_ids, base-table pass: index of the first
non-claims table of strictly minimal row count, tracked as (index, nrows). -/
def base_index_go : List FileStore → Nat → Option (Nat × Nat) → Option (Nat × Nat)
  | [], _, best => best
  | fs :: rest, i, best => base_index_go rest (i + 1) (base_best fs i best)

/-- merger2.c build_eligible_ids: the chosen probe base index, none when
every table is a claims table. -/
def base_index (fss : List FileStore) : Option Nat :=
  (base_index_go fss 0 none).map Prod.fst

/-- merger2.c build_eligible_ids, inner ok loop: the key must be present
in every table other than the base that is not a claims table. -/
def other_primaries_loop : List FileStore → Nat → Nat → Str → Bool
  | [], _, _, _ => true
  | fs :: rest, i, b, id =>
    (i == b || fs.is_claim || (hmap_get fs.id_to_idx id).isSome)
      && other_primaries_loop rest (i + 1) b id

/-- merger2.c build_eligible_ids: with no primary table the eligible ids
are the claims-union keys (or nothing at all when there are no tables);
otherwise the base table's keys filtered by presence in every other
primary table and, when claims tables exist, in the claims union. -/
def build_eligible_ids (fss : List FileStore) : List Str :=
  let cu := claims_union fss
  match base_index fss with
  | none => if have_claims fss then cu.map Prod.fst else []
  | some b =>
    (fss.getD b (filestore_init [])).ids.filter
      (fun id =>
        other_primaries_loop fss 0 b id
          && (!(have_claims fss) || (hmap_get cu id).isSome))

/-- merger2.c write_rows, one output line (without the trailing newline)
for one selected key: the key, then for each table either its n_nonid
cells each preceded by the output delimiter (NULL cells print nothing), or
ncols-1 bare delimiters when the key is absent from that table. -/
def write_rows_line (fss : List FileStore) (id : Str) : Str :=
  id ++ fss.foldl
    (fun acc fs =>
      acc ++ (match hmap_get fs.id_to_idx id with
        | some row =>
            (List.range fs.n_nonid).flatMap
              (fun k => ',' :: (((fs.cells.getD row []).getD k none).getD []))
        | none => List.replicate (fs.cols.length - 1) ','))
    []

/-- merger2.c shuffle (Fisher-Yates) driven by a stream r of rand() draws:
at step i the element at offset rand mod remaining is swapped to the
front of the remaining suffix. -/
def shuffle_go {α : Type} (r : Nat → Nat) : Nat → List α → List α
  | _, [] => []
  | i, x :: xs =>
    let o := r i % (xs.length + 1)
    if o = 0 then x :: shuffle_go r (i + 1) xs
    else xs.getD (o - 1) x :: shuffle_go r (i + 1) (xs.set (o - 1) x)
termination_by _ l => l.length
decreasing_by all_goals simp [List.length_set]

/-- The C conversion (size_t)x of an int value, on a 64-bit size_t. -/
def size_t_of_int (x : Int) : Nat := (x % (2 ^ 64)).toNat

/-- merger2.c main, sampling stage: clamp the requested sample size via
the (size_t)sample > n comparison, shuffle the eligible ids, and hand the
first (size_t)sample of them to write_rows, which emits exactly one data
row per id. -/
def select_sample (r : Nat → Nat) (sample : Int) (elig : List Str) : List Str :=
  let s : Int := if size_t_of_int sample > elig.length then (elig.length : Int) else sample
  (shuffle_go r 0 elig).take (size_t_of_int s)

/-- merger2.c main + load_file: each input file is loaded in order; a file
that cannot be opened (content none) makes load_file perror and exit(1),
aborting the whole run. -/
def merger2_load_go : List (Str × Option (List Str)) → List FileStore → Except Nat (List FileStore)
  | [], acc => Except.ok acc.reverse
  | (_, none) :: _, _ => Except.error 1
  | (p, some ls) :: rest, acc => merger2_load_go rest (load_file_content p ls :: acc)

/-- merger2.c main, file-loading phase over the argument list, with each
input given as (path, content), content none when fopen would fail. -/
def merger2_load_all (inputs : List (Str × Option (List Str))) : Except Nat (List FileStore) :=
  merger2_load_go inputs []

/-- code3.c main, input loop: a file that cannot be opened (none) is
reported and skipped with continue; an opened file's lines are folded into
the running merge state by the per-file ingestion step. -/
def code3_merge_loop {σ : Type} (step : σ → List Str → σ) (st : σ)
    (inputs : List (Option (List Str))) : σ :=
  match inputs with
  | [] => st
  | none :: rest => code3_merge_loop step st rest
  | some content :: rest => code3_merge_loop step (step st content) rest

theorem hmap_get_put {α : Type} (m : List (Str × α)) (k : Str) (v : α) (k' : Str) :
    hmap_get (hmap_put m k v) k' = if k' = k then some v else hmap_get m k' := by
  induction m with
  | nil =>
    rw [hmap_put_nil, hmap_get_cons, hmap_get_nil]
    by_cases h : k' = k
    · rw [if_pos h, if_pos (show (k, v).1 = k' from h.symm)]
    · rw [if_neg h, if_neg (show ¬ (k, v).1 = k' from fun hh => h hh.symm)]
  | cons e rest ih =>
    rw [hmap_put_cons]
    by_cases he : e.1 = k
    · rw [if_pos he, hmap_get_cons, hmap_get_cons]
      by_cases h : k' = k
      · rw [if_pos h, if_pos (show (k, v).1 = k' from h.symm)]
      · rw [if_neg h, if_neg (show ¬ (k, v).1 = k' from fun hh => h hh.symm),
          if_neg (show ¬ e.1 = k' from fun hh => h (hh.symm.trans he))]
    · rw [if_neg he, hmap_get_cons, hmap_get_cons, ih]
      by_cases h : k' = k
      · rw [if_pos h, if_neg (show ¬ e.1 = k' from fun hh => he (hh.trans h)), if_pos h]
      · rw [if_neg h, if_neg h]

/-- The FileStore consistency invariant maintained by ingestion: id_to_idx
maps exactly the stored keys, each to the index of its row, and the cells
array runs parallel to the ids array. -/
def StoreInv (fs : FileStore) : Prop :=
  (∀ k i, hmap_get fs.id_to_idx k = some i ↔ fs.ids.get? i = some k)
  ∧ fs.cells.length = fs.ids.length

theorem StoreInv.mem_iff {fs : FileStore} (h : StoreInv fs) (k : Str) :
    (hmap_get fs.id_to_idx k).isSome = true ↔ k ∈ fs.ids := by
  rw [Option.isSome_iff_exists, List.mem_iff_get?]
  constructor
  · rintro ⟨i, hi⟩
    exact ⟨i, (h.1 k i).mp hi⟩
  · rintro ⟨i, hi⟩
    exact ⟨i, (h.1 k i).mpr hi⟩

theorem StoreInv.nodup {fs : FileStore} (h : StoreInv fs) : fs.ids.Nodup := by
  rw [List.nodup_iff_injective_get]
  intro a b hab
  have ha : fs.ids.get? a.val = some (fs.ids.get a) := List.get?_eq_get a.isLt
  have hb : fs.ids.get? b.val = some (fs.ids.get b) := List.get?_eq_get b.isLt
  rw [hab] at ha
  have h1 := (h.1 (fs.ids.get b) a.val).mpr ha
  have h2 := (h.1 (fs.ids.get b) b.val).mpr hb
  have : a.val = b.val := by
    have := h1.symm.trans h2
    exact Option.some_injective _ this
  exact Fin.ext this

theorem filestore_add_row_inv (fs : FileStore) (id : Str) (h : StoreInv fs)
    (hmiss : hmap_get fs.id_to_idx id = none) :
    StoreInv (filestore_add_row fs id).1
      ∧ (filestore_add_row fs id).2 = fs.ids.length
      ∧ (filestore_add_row fs id).1.ids.get? (filestore_add_row fs id).2 = some id := by
  refine ⟨⟨?_, ?_⟩, rfl, ?_⟩
  · intro k i
    show hmap_get (hmap_put fs.id_to_idx id fs.ids.length) k = some i
      ↔ (fs.ids ++ [id]).get? i = some k
    rw [hmap_get_put]
    by_cases hk : k = id
    · rw [if_pos hk, hk]
      constructor
      · intro hi
        have hlen : i = fs.ids.length := (Option.some_injective _ hi).symm
        rw [hlen]
        exact List.get?_concat_length fs.ids id
      · intro hi
        rcases lt_trichotomy i fs.ids.length with hlt | heq | hgt
        · rw [List.get?_append hlt] at hi
          have hsome := (h.1 id i).mpr hi
          rw [hmiss] at hsome
          cases hsome
        · rw [heq]
        · have hle : (fs.ids ++ [id]).length ≤ i := by
            rw [List.length_append, List.length_cons, List.length_nil]
            omega
          rw [List.get?_len_le hle] at hi
          cases hi
    · rw [if_neg hk]
      rw [h.1 k i]
      constructor
      · intro hi
        have hlt : i < fs.ids.length := by
          rcases List.get?_eq_some.mp hi with ⟨hl, _⟩
          exact hl
        rw [List.get?_append hlt]
        exact hi
      · intro hi
        rcases lt_trichotomy i fs.ids.length with hlt | heq | hgt
        · rw [List.get?_append hlt] at hi
          exact hi
        · subst heq
          rw [List.get?_concat_length] at hi
          exact absurd (Option.some_injective _ hi).symm hk
        · have hle : (fs.ids ++ [id]).length ≤ i := by
            rw [List.length_append, List.length_cons, List.length_nil]
            omega
          rw [List.get?_len_le hle] at hi
          cases hi
  · show (fs.cells ++ [List.replicate fs.n_nonid none]).length = (fs.ids ++ [id]).length
    rw [List.length_append, List.length_append, h.2]
    rfl
  · show (fs.ids ++ [id]).get? fs.ids.length = some id
    exact List.get?_concat_length fs.ids id

theorem filestore_get_or_create_inv (fs : FileStore) (id : Str) (h : StoreInv fs) :
    StoreInv (filestore_get_or_create fs id).1
      ∧ (filestore_get_or_create fs id).1.ids.get? (filestore_get_or_create fs id).2 = some id := by
  unfold filestore_get_or_create
  cases hg : hmap_get fs.id_to_idx id with
  | some v =>
    exact ⟨h, (h.1 id v).mp hg⟩
  | none =>
    rcases filestore_add_row_inv fs id h hg with ⟨h1, _, h3⟩
    exact ⟨h1, h3⟩

theorem load_row_inv (fs : FileStore) (fields : List Str) (h : StoreInv fs) :
    StoreInv (load_row fs fields) := by
  unfold load_row
  by_cases h0 : fields.length = 0
  · rw [if_pos h0]; exact h
  · rw [if_neg h0]
    by_cases h1 : fields.length ≤ fs.id_col
    · rw [if_pos h1]; exact h
    · rw [if_neg h1]
      rcases filestore_get_or_create_inv fs (fields.getD fs.id_col []) h with ⟨h2, _⟩
      exact ⟨h2.1, by simpa only [List.length_set] using h2.2⟩

theorem load_data_line_inv (fs : FileStore) (line : Str) (h : StoreInv fs) :
    StoreInv (load_data_line fs line) := by
  unfold load_data_line
  by_cases hb : trim_eol line = []
  · simp only [hb, if_pos rfl]; exact h
  · simp only [if_neg hb]; exact load_row_inv _ _ h

theorem load_lines_inv (lines : List Str) (fs : FileStore) (h : StoreInv fs) :
    StoreInv (lines.foldl load_data_line fs) := by
  induction lines generalizing fs with
  | nil => exact h
  | cons l rest ih => exact ih _ (load_data_line_inv fs l h)

theorem load_file_content_inv (path : Str) (lines : List Str) :
    StoreInv (load_file_content path lines) := by
  have hempty : ∀ (fs0 : FileStore), fs0.id_to_idx = [] → fs0.ids = [] →
      fs0.cells = [] → StoreInv fs0 := by
    intro fs0 hm hi hc
    constructor
    · intro k i
      rw [hm, hi, hmap_get_nil]
      simp only [List.get?_nil]
      constructor
      · intro hh; cases hh
      · intro hh; cases hh
    · rw [hc, hi]
      rfl
  unfold load_file_content
  cases lines with
  | nil => exact hempty _ rfl rfl rfl
  | cons rawHeader dataLines =>
    exact load_lines_inv dataLines _ (hempty _ rfl rfl rfl)

/-- The merged content of one cell: values joined by MERGE_SEP in order. -/
def sep_join : List Str → Str
  | [] => []
  | [v] => v
  | v :: rest => v ++ merge_sep ++ sep_join rest

theorem sep_join_append_head (a b : Str) (l : List Str) :
    sep_join ((a ++ b) :: l) = a ++ sep_join (b :: l) := by
  cases l with
  | nil => rfl
  | cons w l' => simp [sep_join, List.append_assoc]

theorem foldl_acm_some (vs : List Str) :
    ∀ d : Str, vs.foldl append_cell_merge (some d)
      = some (sep_join (d :: vs.filter (fun v => !v.isEmpty))) := by
  induction vs with
  | nil => intro d; rfl
  | cons v rest ih =>
    intro d
    by_cases hv : v = []
    · subst hv
      show rest.foldl append_cell_merge (append_cell_merge (some d) []) = _
      rw [show append_cell_merge (some d) [] = some d from rfl, ih d]
      rfl
    · show rest.foldl append_cell_merge (append_cell_merge (some d) v) = _
      rw [show append_cell_merge (some d) v = some (d ++ merge_sep ++ v) by
        simp [append_cell_merge, hv]]
      rw [ih (d ++ merge_sep ++ v)]
      have hfil : (v :: rest).filter (fun u => !u.isEmpty)
          = v :: rest.filter (fun u => !u.isEmpty) := by
        simp [List.filter_cons, List.isEmpty_iff, hv]
      rw [hfil, sep_join_append_head (d ++ merge_sep) v]
      rfl

/-- Folding append_cell_merge from an empty (NULL) cell over all values a
key contributes to one column yields exactly the non-empty values joined
by MERGE_SEP in encounter order, and no content when all values were
empty. -/
theorem foldl_acm_none (vs : List Str) :
    vs.foldl append_cell_merge none
      = (if (vs.filter (fun v => !v.isEmpty)).isEmpty
          then none
          else some (sep_join (vs.filter (fun v => !v.isEmpty)))) := by
  induction vs with
  | nil => rfl
  | cons v rest ih =>
    by_cases hv : v = []
    · subst hv
      show rest.foldl append_cell_merge (append_cell_merge none []) = _
      rw [show append_cell_merge none [] = none from rfl, ih]
      rfl
    · show rest.foldl append_cell_merge (append_cell_merge none v) = _
      rw [show append_cell_merge none v = some v by simp [append_cell_merge, hv]]
      rw [foldl_acm_some rest v]
      have hfil : (v :: rest).filter (fun u => !u.isEmpty)
          = v :: rest.filter (fun u => !u.isEmpty) := by
        simp [List.filter_cons, List.isEmpty_iff, hv]
      rw [hfil]
      rfl

/-- A duplicate-key data row is merged in place: the ids array is
unchanged and only the existing row's cells are updated. -/
theorem load_row_dup (fs : FileStore) (fields : List Str) (idx : Nat)
    (hget : hmap_get fs.id_to_idx (fields.getD fs.id_col []) = some idx)
    (hn : fields.length ≠ 0) (hc : fs.id_col < fields.length) :
    (load_row fs fields).ids = fs.ids
      ∧ (load_row fs fields).id_to_idx = fs.id_to_idx
      ∧ (load_row fs fields).cells
          = fs.cells.set idx (merge_row_cells (fs.cells.getD idx []) (fields.eraseIdx fs.id_col)) := by
  unfold load_row
  rw [if_neg hn, if_neg (not_le.mpr hc)]
  unfold filestore_get_or_create
  simp only [hget]
  exact ⟨trivial, trivial, trivial⟩

theorem shuffle_go_nil {α : Type} (r : Nat → Nat) (i : Nat) :
    shuffle_go (α := α) r i [] = [] := by
  rw [shuffle_go]

theorem shuffle_go_cons {α : Type} (r : Nat → Nat) (i : Nat) (x : α) (xs : List α) :
    shuffle_go r i (x :: xs) =
      if r i % (xs.length + 1) = 0 then x :: shuffle_go r (i + 1) xs
      else xs.getD (r i % (xs.length + 1) - 1) x
        :: shuffle_go r (i + 1) (xs.set (r i % (xs.length + 1) - 1) x) := by
  rw [shuffle_go]

theorem getD_set_cons_perm {α : Type} (x : α) :
    ∀ (xs : List α) (k : Nat), k < xs.length →
      List.Perm (xs.getD k x :: xs.set k x) (x :: xs) := by
  intro xs
  induction xs with
  | nil => intro k hk; cases hk
  | cons y t ih =>
    intro k hk
    cases k with
    | zero =>
      show List.Perm (y :: x :: t) (x :: y :: t)
      exact List.Perm.swap x y t
    | succ k =>
      show List.Perm (t.getD k x :: y :: t.set k x) (x :: y :: t)
      have h1 : List.Perm (t.getD k x :: y :: t.set k x) (y :: t.getD k x :: t.set k x) :=
        List.Perm.swap y (t.getD k x) (t.set k x)
      have h2 : List.Perm (y :: t.getD k x :: t.set k x) (y :: x :: t) :=
        (ih k (Nat.lt_of_succ_lt_succ hk)).cons y
      have h3 : List.Perm (y :: x :: t) (x :: y :: t) := List.Perm.swap x y t
      exact (h1.trans h2).trans h3

theorem shuffle_go_perm {α : Type} (r : Nat → Nat) :
    ∀ (n : Nat) (l : List α), l.length = n → ∀ i, List.Perm (shuffle_go r i l) l := by
  intro n
  induction n with
  | zero =>
    intro l hl i
    cases l with
    | nil => rw [shuffle_go_nil]
    | cons x xs => cases hl
  | succ m ih =>
    intro l hl i
    cases l with
    | nil => rw [shuffle_go_nil]
    | cons x xs =>
      have hm : xs.length = m := by
        simpa using hl
      rw [shuffle_go_cons]
      by_cases ho : r i % (xs.length + 1) = 0
      · rw [if_pos ho]
        exact (ih xs hm (i + 1)).cons x
      · rw [if_neg ho]
        have hmod : r i % (xs.length + 1) < xs.length + 1 := Nat.mod_lt _ (Nat.succ_pos _)
        have hk : r i % (xs.length + 1) - 1 < xs.length := by omega
        have h1 := ih (xs.set (r i % (xs.length + 1) - 1) x) (by simpa using hm) (i + 1)
        exact (h1.cons _).trans (getD_set_cons_perm x xs _ hk)

theorem shuffle_go_length {α : Type} (r : Nat → Nat) (i : Nat) (l : List α) :
    (shuffle_go r i l).length = l.length :=
  (shuffle_go_perm r l.length l rfl i).length_eq

theorem fold_put_keys (ids : List Str) :
    ∀ (m : List (Str × Int)) (k : Str),
      k ∈ (ids.foldl (fun m2 id => hmap_put m2 id (-1)) m).map Prod.fst
        ↔ (k ∈ m.map Prod.fst ∨ k ∈ ids) := by
  induction ids with
  | nil =>
    intro m k
    simp only [List.foldl_nil, List.not_mem_nil, or_false]
  | cons id rest ih =>
    intro m k
    rw [List.foldl_cons, ih (hmap_put m id (-1)) k, hmap_put_keys m id (-1) k, List.mem_cons]
    tauto

theorem claims_union_go (fss : List FileStore) :
    ∀ (m : List (Str × Int)) (k : Str),
      k ∈ (fss.foldl
            (fun m2 fs => if fs.is_claim then fs.ids.foldl (fun m3 id => hmap_put m3 id (-1)) m2 else m2)
            m).map Prod.fst
        ↔ (k ∈ m.map Prod.fst ∨ ∃ fs, fs ∈ fss ∧ fs.is_claim = true ∧ k ∈ fs.ids) := by
  induction fss with
  | nil =>
    intro m k
    constructor
    · intro h; exact Or.inl h
    · rintro (h | ⟨fs, hmem, _, _⟩)
      · exact h
      · cases hmem
  | cons fs rest ih =>
    intro m k
    rw [List.foldl_cons]
    by_cases hc : fs.is_claim = true
    · rw [if_pos hc, ih, fold_put_keys]
      constructor
      · rintro (⟨h | h⟩ | ⟨fs2, hmem, hcl, hk⟩)
        · exact Or.inl h
        · exact Or.inr ⟨fs, List.mem_cons_self fs rest, hc, h⟩
        · exact Or.inr ⟨fs2, List.mem_cons_of_mem fs hmem, hcl, hk⟩
      · rintro (h | ⟨fs2, hmem, hcl, hk⟩)
        · exact Or.inl (Or.inl h)
        · rcases List.mem_cons.mp hmem with heq | hmem2
          · exact Or.inl (Or.inr (heq ▸ hk))
          · exact Or.inr ⟨fs2, hmem2, hcl, hk⟩
    · rw [if_neg hc, ih]
      constructor
      · rintro (h | ⟨fs2, hmem, hcl, hk⟩)
        · exact Or.inl h
        · exact Or.inr ⟨fs2, List.mem_cons_of_mem fs hmem, hcl, hk⟩
      · rintro (h | ⟨fs2, hmem, hcl, hk⟩)
        · exact Or.inl h
        · rcases List.mem_cons.mp hmem with heq | hmem2
          · exact absurd (heq ▸ hcl) hc
          · exact Or.inr ⟨fs2, hmem2, hcl, hk⟩

theorem claims_union_mem (fss : List FileStore) (k : Str) :
    k ∈ (claims_union fss).map Prod.fst
      ↔ ∃ fs, fs ∈ fss ∧ fs.is_claim = true ∧ k ∈ fs.ids := by
  unfold claims_union
  rw [claims_union_go]
  simp only [List.map_nil, List.not_mem_nil, false_or]

theorem base_best_claim (fs : FileStore) (i : Nat) (best : Option (Nat × Nat))
    (hc : fs.is_claim = true) : base_best fs i best = best := by
  unfold base_best
  rw [if_pos hc]

theorem base_best_prim_none (fs : FileStore) (i : Nat) (hc : fs.is_claim = false) :
    base_best fs i none = some (i, fs.ids.length) := by
  unfold base_best
  rw [hc]
  rfl

theorem base_best_prim_lt (fs : FileStore) (i b0 bn0 : Nat) (hc : fs.is_claim = false)
    (hl : fs.ids.length < bn0) :
    base_best fs i (some (b0, bn0)) = some (i, fs.ids.length) := by
  unfold base_best
  rw [hc]
  simp only [Bool.false_eq_true, if_false]
  rw [if_pos hl]

theorem base_best_prim_ge (fs : FileStore) (i b0 bn0 : Nat) (hc : fs.is_claim = false)
    (hl : ¬ fs.ids.length < bn0) :
    base_best fs i (some (b0, bn0)) = some (b0, bn0) := by
  unfold base_best
  rw [hc]
  simp only [Bool.false_eq_true, if_false]
  rw [if_neg hl]

theorem base_best_eq_none_iff (fs : FileStore) (i : Nat) (best : Option (Nat × Nat)) :
    base_best fs i best = none ↔ (fs.is_claim = true ∧ best = none) := by
  by_cases hc : fs.is_claim = true
  · rw [base_best_claim fs i best hc]
    exact ⟨fun h => ⟨hc, h⟩, fun h => h.2⟩
  · have hcf : fs.is_claim = false := by
      cases hcl : fs.is_claim
      · rfl
      · exact absurd hcl hc
    constructor
    · intro h
      exfalso
      cases hb : best with
      | none => rw [hb, base_best_prim_none fs i hcf] at h; cases h
      | some p =>
        rcases p with ⟨b0, bn0⟩
        rw [hb] at h
        by_cases hl : fs.ids.length < bn0
        · rw [base_best_prim_lt fs i b0 bn0 hcf hl] at h; cases h
        · rw [base_best_prim_ge fs i b0 bn0 hcf hl] at h; cases h
    · rintro ⟨h, _⟩
      exact absurd h hc

theorem base_index_go_none_iff (fss : List FileStore) :
    ∀ (i : Nat) (best : Option (Nat × Nat)),
      base_index_go fss i best = none ↔ (best = none ∧ ∀ fs ∈ fss, fs.is_claim = true) := by
  induction fss with
  | nil =>
    intro i best
    simp only [base_index_go]
    constructor
    · intro h; exact ⟨h, fun fs hf => absurd hf (List.not_mem_nil fs)⟩
    · rintro ⟨h, _⟩; exact h
  | cons fs rest ih =>
    intro i best
    show base_index_go rest (i + 1) (base_best fs i best) = none ↔ _
    rw [ih, base_best_eq_none_iff]
    constructor
    · rintro ⟨⟨h1, h2⟩, h3⟩
      refine ⟨h2, fun fs2 hmem => ?_⟩
      rcases List.mem_cons.mp hmem with heq | hmem2
      · exact heq ▸ h1
      · exact h3 fs2 hmem2
    · rintro ⟨h1, h2⟩
      exact ⟨⟨h2 fs (List.mem_cons_self fs rest), h1⟩,
        fun fs2 hmem => h2 fs2 (List.mem_cons_of_mem fs hmem)⟩

theorem base_index_go_min (fss : List FileStore) :
    ∀ (i : Nat) (best : Option (Nat × Nat)) (b bn : Nat),
      base_index_go fss i best = some (b, bn) →
      (∀ fs ∈ fss, fs.is_claim = false → bn ≤ fs.ids.length)
      ∧ (best = some (b, bn)
          ∨ (i ≤ b ∧ ∃ fs, fss.get? (b - i) = some fs ∧ fs.is_claim = false ∧ fs.ids.length = bn))
      ∧ (∀ b0 bn0, best = some (b0, bn0) → bn ≤ bn0) := by
  induction fss with
  | nil =>
    intro i best b bn h
    simp only [base_index_go] at h
    refine ⟨fun fs hf _ => absurd hf (List.not_mem_nil fs), Or.inl h, ?_⟩
    intro b0 bn0 hb0
    rw [h] at hb0
    cases hb0
    exact Nat.le_refl bn
  | cons fs rest ih =>
    intro i best b bn h
    have h2 : base_index_go rest (i + 1) (base_best fs i best) = some (b, bn) := h
    obtain ⟨ih1, ih2, ih3⟩ := ih (i + 1) (base_best fs i best) b bn h2
    by_cases hc : fs.is_claim = true
    · rw [base_best_claim fs i best hc] at ih2 ih3
      refine ⟨?_, ?_, ih3⟩
      · intro fs2 hmem hprim
        rcases List.mem_cons.mp hmem with heq | hmem2
        · rw [heq] at hprim
          rw [hprim] at hc
          cases hc
        · exact ih1 fs2 hmem2 hprim
      · rcases ih2 with hl | ⟨hib, fs3, hget, hfp, hlen⟩
        · exact Or.inl hl
        · refine Or.inr ⟨Nat.le_of_succ_le hib, fs3, ?_, hfp, hlen⟩
          have hsub : b - i = (b - (i + 1)) + 1 := by omega
          rw [hsub, List.get?_cons_succ]
          exact hget
    · have hcf : fs.is_claim = false := by
        cases hcl : fs.is_claim
        · rfl
        · exact absurd hcl hc
      have hfs_min : bn ≤ fs.ids.length := by
        cases hb : best with
        | none =>
          rw [hb, base_best_prim_none fs i hcf] at ih3
          exact ih3 i fs.ids.length rfl
        | some p =>
          rcases p with ⟨b0, bn0⟩
          by_cases hl : fs.ids.length < bn0
          · rw [hb, base_best_prim_lt fs i b0 bn0 hcf hl] at ih3
            exact ih3 i fs.ids.length rfl
          · rw [hb, base_best_prim_ge fs i b0 bn0 hcf hl] at ih3
            have := ih3 b0 bn0 rfl
            omega
      refine ⟨?_, ?_, ?_⟩
      · intro fs2 hmem hprim
        rcases List.mem_cons.mp hmem with heq | hmem2
        · rw [heq]
          exact hfs_min
        · exact ih1 fs2 hmem2 hprim
      · -- locate the chosen index
        cases hb : best with
        | none =>
          rw [hb, base_best_prim_none fs i hcf] at ih2
          rcases ih2 with hl | ⟨hib, fs3, hget, hfp, hlen⟩
          · cases hl
            refine Or.inr ⟨Nat.le_refl i, fs, ?_, hcf, rfl⟩
            rw [Nat.sub_self i]
            rfl
          · refine Or.inr ⟨Nat.le_of_succ_le hib, fs3, ?_, hfp, hlen⟩
            have hsub : b - i = (b - (i + 1)) + 1 := by omega
            rw [hsub, List.get?_cons_succ]
            exact hget
        | some p =>
          rcases p with ⟨b0, bn0⟩
          by_cases hl : fs.ids.length < bn0
          · rw [hb, base_best_prim_lt fs i b0 bn0 hcf hl] at ih2
            rcases ih2 with hl2 | ⟨hib, fs3, hget, hfp, hlen⟩
            · cases hl2
              refine Or.inr ⟨Nat.le_refl i, fs, ?_, hcf, rfl⟩
              rw [Nat.sub_self i]
              rfl
            · refine Or.inr ⟨Nat.le_of_succ_le hib, fs3, ?_, hfp, hlen⟩
              have hsub : b - i = (b - (i + 1)) + 1 := by omega
              rw [hsub, List.get?_cons_succ]
              exact hget
          · rw [hb, base_best_prim_ge fs i b0 bn0 hcf hl] at ih2
            rcases ih2 with hl2 | ⟨hib, fs3, hget, hfp, hlen⟩
            · exact Or.inl (hl2 ▸ hb.symm ▸ rfl)
            · refine Or.inr ⟨Nat.le_of_succ_le hib, fs3, ?_, hfp, hlen⟩
              have hsub : b - i = (b - (i + 1)) + 1 := by omega
              rw [hsub, List.get?_cons_succ]
              exact hget
      · intro b0 bn0 hb0
        cases hb : best with
        | none =>
          rw [hb] at hb0
          cases hb0
        | some p =>
          rcases p with ⟨b1, bn1⟩
          rw [hb] at hb0
          cases hb0
          by_cases hl : fs.ids.length < bn0
          · rw [hb, base_best_prim_lt fs i b0 bn0 hcf hl] at ih3
            have := ih3 i fs.ids.length rfl
            omega
          · rw [hb, base_best_prim_ge fs i b0 bn0 hcf hl] at ih3
            exact ih3 b0 bn0 rfl

theorem base_index_none_iff (fss : List FileStore) :
    base_index fss = none ↔ ∀ fs ∈ fss, fs.is_claim = true := by
  unfold base_index
  rw [Option.map_eq_none']
  rw [base_index_go_none_iff fss 0 none]
  exact ⟨fun h => h.2, fun h => ⟨rfl, h⟩⟩

theorem base_index_some_spec (fss : List FileStore) (b : Nat)
    (h : base_index fss = some b) :
    ∃ base, fss.get? b = some base ∧ base.is_claim = false
      ∧ ∀ fs ∈ fss, fs.is_claim = false → base.ids.length ≤ fs.ids.length := by
  unfold base_index at h
  rcases Option.map_eq_some'.mp h with ⟨⟨b1, bn⟩, hgo, hb1⟩
  cases hb1
  obtain ⟨h1, h2, _⟩ := base_index_go_min fss 0 none b1 bn hgo
  rcases h2 with hl | ⟨_, fs3, hget, hfp, hlen⟩
  · cases hl
  · rw [Nat.sub_zero] at hget
    exact ⟨fs3, hget, hfp, fun fs2 hmem hprim => hlen ▸ h1 fs2 hmem hprim⟩

theorem other_primaries_loop_iff (fss : List FileStore) :
    ∀ (i b : Nat) (id : Str),
      other_primaries_loop fss i b id = true
        ↔ ∀ j fs, fss.get? j = some fs → i + j ≠ b → fs.is_claim = false →
            (hmap_get fs.id_to_idx id).isSome = true := by
  induction fss with
  | nil =>
    intro i b id
    simp only [other_primaries_loop]
    constructor
    · intro _ j fs hget
      rw [List.get?_nil] at hget
      cases hget
    · intro _; trivial
  | cons fs rest ih =>
    intro i b id
    simp only [other_primaries_loop, Bool.and_eq_true, Bool.or_eq_true, beq_iff_eq]
    rw [ih (i + 1) b id]
    constructor
    · rintro ⟨hhead, htail⟩
      intro j fs2 hget hne hprim
      cases j with
      | zero =>
        rw [List.get?_cons_zero] at hget
        cases hget
        rcases hhead with (hib | hcl) | hsome
        · exact absurd (by omega : i + 0 = b) hne
        · rw [hprim] at hcl
          cases hcl
        · exact hsome
      | succ j2 =>
        rw [List.get?_cons_succ] at hget
        exact htail j2 fs2 hget (by omega) hprim
    · intro hall
      constructor
      · by_cases hib : i = b
        · exact Or.inl (Or.inl hib)
        · by_cases hcl : fs.is_claim = true
          · exact Or.inl (Or.inr hcl)
          · have hcf : fs.is_claim = false := by
              cases hx : fs.is_claim
              · rfl
              · exact absurd hx hcl
            exact Or.inr (hall 0 fs (List.get?_cons_zero) (by omega) hcf)
      · intro j fs2 hget hne hprim
        exact hall (j + 1) fs2 (by rw [List.get?_cons_succ]; exact hget) (by omega) hprim

theorem build_eligible_mem_primary (fss : List FileStore)
    (hinv : ∀ fs ∈ fss, StoreInv fs) (b : Nat) (hb : base_index fss = some b)
    (base : FileStore) (hbase : fss.get? b = some base) (k : Str) :
    k ∈ build_eligible_ids fss ↔
      (k ∈ base.ids
        ∧ (∀ fs ∈ fss, fs.is_claim = false → k ∈ fs.ids)
        ∧ (have_claims fss = true → ∃ fs, fs ∈ fss ∧ fs.is_claim = true ∧ k ∈ fs.ids)) := by
  have hgetD : fss.getD b (filestore_init []) = base := by
    rw [List.getD_eq_getD_get?, hbase]
    rfl
  simp only [build_eligible_ids, hb, hgetD]
  rw [List.mem_filter]
  simp only [Bool.and_eq_true, Bool.or_eq_true, Bool.not_eq_true']
  constructor
  · rintro ⟨hkbase, hopl, hgate⟩
    refine ⟨hkbase, ?_, ?_⟩
    · intro fs hmem hprim
      obtain ⟨j, hj⟩ := List.get?_of_mem hmem
      by_cases hjb : j = b
      · rw [hjb, hbase] at hj
        cases hj
        exact hkbase
      · have hsome := (other_primaries_loop_iff fss 0 b k).mp hopl j fs hj (by omega) hprim
        exact ((hinv fs hmem).mem_iff k).mp hsome
    · intro hhc
      rcases hgate with hfalse | hsome
      · rw [hhc] at hfalse
        cases hfalse
      · exact (claims_union_mem fss k).mp ((hmap_get_isSome_iff (claims_union fss) k).mp hsome)
  · rintro ⟨hkbase, hall, hclaims⟩
    refine ⟨hkbase, ?_, ?_⟩
    · rw [other_primaries_loop_iff]
      intro j fs hj _ hprim
      exact ((hinv fs (List.get?_mem hj)).mem_iff k).mpr (hall fs (List.get?_mem hj) hprim)
    · by_cases hhc : have_claims fss = true
      · refine Or.inr ?_
        rw [hmap_get_isSome_iff]
        exact (claims_union_mem fss k).mpr (hclaims hhc)
      · refine Or.inl ?_
        cases hx : have_claims fss
        · rfl
        · exact absurd hx hhc

theorem build_eligible_mem_noprimary (fss : List FileStore)
    (hall : ∀ fs ∈ fss, fs.is_claim = true) (k : Str) :
    k ∈ build_eligible_ids fss ↔ ∃ fs, fs ∈ fss ∧ fs.is_claim = true ∧ k ∈ fs.ids := by
  have hb : base_index fss = none := (base_index_none_iff fss).mpr hall
  simp only [build_eligible_ids, hb]
  by_cases hhc : have_claims fss = true
  · rw [if_pos hhc]
    exact claims_union_mem fss k
  · rw [if_neg hhc]
    constructor
    · intro h
      exact absurd h (List.not_mem_nil k)
    · rintro ⟨fs, hmem, hcl, _⟩
      exact absurd (show have_claims fss = true by
        unfold have_claims
        rw [List.any_eq_true]
        exact ⟨fs, hmem, hcl⟩) hhc

/-- C1: the eligible key set.  With no primary table it is exactly the
union of the claims tables' keys; with a primary base table (which
base_index picks as a smallest primary) a key is eligible iff it is a key
of the base, of every primary table, and, when any claims table exists, of
some claims table; and for two primary tables and no claims tables it is
exactly their key intersection. -/
theorem c1_eligible_set (fss : List FileStore) (hinv : ∀ fs ∈ fss, StoreInv fs) :
    ((∀ fs ∈ fss, fs.is_claim = true) →
      ∀ k, (k ∈ build_eligible_ids fss ↔ ∃ fs, fs ∈ fss ∧ fs.is_claim = true ∧ k ∈ fs.ids))
    ∧ (base_index fss = none ↔ ∀ fs ∈ fss, fs.is_claim = true)
    ∧ (∀ b, base_index fss = some b →
        ∃ base, fss.get? b = some base ∧ base.is_claim = false
          ∧ (∀ fs ∈ fss, fs.is_claim = false → base.ids.length ≤ fs.ids.length)
          ∧ ∀ k, (k ∈ build_eligible_ids fss ↔
              (k ∈ base.ids
                ∧ (∀ fs ∈ fss, fs.is_claim = false → k ∈ fs.ids)
                ∧ (have_claims fss = true → ∃ fs, fs ∈ fss ∧ fs.is_claim = true ∧ k ∈ fs.ids))))
    ∧ (∀ A B : FileStore, StoreInv A → StoreInv B →
        A.is_claim = false → B.is_claim = false →
        ∀ k, (k ∈ build_eligible_ids [A, B] ↔ (k ∈ A.ids ∧ k ∈ B.ids))) := by
  refine ⟨fun hall k => build_eligible_mem_noprimary fss hall k,
    base_index_none_iff fss, ?_, ?_⟩
  · intro b hb
    obtain ⟨base, hbase, hprim, hmin⟩ := base_index_some_spec fss b hb
    exact ⟨base, hbase, hprim, hmin, fun k =>
      build_eligible_mem_primary fss hinv b hb base hbase k⟩
  · intro A B hA hB hpA hpB k
    have hinv2 : ∀ fs ∈ [A, B], StoreInv fs := by
      intro fs hmem
      rcases List.mem_cons.mp hmem with heq | hmem2
      · exact heq ▸ hA
      · rcases List.mem_cons.mp hmem2 with heq2 | hmem3
        · exact heq2 ▸ hB
        · exact absurd hmem3 (List.not_mem_nil fs)
    have hnc : ¬ base_index [A, B] = none := by
      intro hn
      have := (base_index_none_iff [A, B]).mp hn A (List.mem_cons_self A [B])
      rw [hpA] at this
      cases this
    rcases hx : base_index [A, B] with _ | b
    · exact absurd hx hnc
    obtain ⟨base, hbase, _, _⟩ := base_index_some_spec [A, B] b hx
    rw [build_eligible_mem_primary [A, B] hinv2 b hx base hbase k]
    have hhc : have_claims [A, B] = false := by
      unfold have_claims
      simp only [List.any_cons, List.any_nil, hpA, hpB, Bool.or_false]
    have hbase_mem : base = A ∨ base = B := by
      rcases List.get?_mem hbase with h
      rcases List.mem_cons.mp h with heq | h2
      · exact Or.inl heq
      · rcases List.mem_cons.mp h2 with heq2 | h3
        · exact Or.inr heq2
        · exact absurd h3 (List.not_mem_nil base)
    constructor
    · rintro ⟨hkbase, hall, _⟩
      exact ⟨hall A (List.mem_cons_self A [B]) hpA,
        hall B (List.mem_cons_of_mem A (List.mem_cons_self B [])) hpB⟩
    · rintro ⟨hkA, hkB⟩
      refine ⟨?_, ?_, ?_⟩
      · rcases hbase_mem with h | h <;> rw [h]
        · exact hkA
        · exact hkB
      · intro fs hmem _
        rcases List.mem_cons.mp hmem with heq | hmem2
        · exact heq ▸ hkA
        · rcases List.mem_cons.mp hmem2 with heq2 | hmem3
          · exact heq2 ▸ hkB
          · exact absurd hmem3 (List.not_mem_nil fs)
      · intro hct
        rw [hhc] at hct
        cases hct

/-- C2: duplicate-key rows merge into a single row.  The fold of
append_cell_merge over the values a key contributes to one column joins
the non-empty values with MERGE_SEP in encounter order; an empty value is
a no-op; a value arriving at an empty (NULL) cell becomes the content with
no separator; a duplicate-key row creates no new row, only a cell merge;
and two rows with key P1 and values alpha then beta in one column yield
the merged cell alpha || beta. -/
theorem c2_duplicate_key_merge (vs : List Str) :
    (vs.foldl append_cell_merge none
      = (if (vs.filter (fun v => !v.isEmpty)).isEmpty then none
          else some (sep_join (vs.filter (fun v => !v.isEmpty)))))
    ∧ (∀ d : Option Str, append_cell_merge d [] = d)
    ∧ (∀ v : Str, v ≠ [] → append_cell_merge none v = some v)
    ∧ (∀ d v : Str, v ≠ [] → append_cell_merge (some d) v = some (d ++ merge_sep ++ v))
    ∧ (∀ (fs : FileStore) (fields : List Str) (idx : Nat),
        hmap_get fs.id_to_idx (fields.getD fs.id_col []) = some idx →
        fields.length ≠ 0 → fs.id_col < fields.length →
        (load_row fs fields).ids = fs.ids
          ∧ (load_row fs fields).cells
              = fs.cells.set idx (merge_row_cells (fs.cells.getD idx []) (fields.eraseIdx fs.id_col)))
    ∧ (load_file_content "f.csv".toList ["id,c".toList, "P1,alpha".toList, "P1,beta".toList]).ids
        = ["P1".toList]
    ∧ (load_file_content "f.csv".toList ["id,c".toList, "P1,alpha".toList, "P1,beta".toList]).cells
        = [[some "alpha || beta".toList]] := by
  refine ⟨foldl_acm_none vs, ?_, ?_, ?_, ?_, by decide, by decide⟩
  · intro d; rfl
  · intro v hv; simp [append_cell_merge, hv]
  · intro d v hv; simp [append_cell_merge, hv]
  · intro fs fields idx hget hn hc
    obtain ⟨h1, _, h3⟩ := load_row_dup fs fields idx hget hn hc
    exact ⟨h1, h3⟩

/-- C3: for a non-negative int sample size N and a non-empty duplicate-free
eligible list, the program writes exactly min(N, M) rows with pairwise
distinct keys, and when N covers the whole set the output is the full
shuffled eligible list, a permutation of it. -/
theorem c3_sampling_bound (r : Nat → Nat) (N : Int) (E : List Str)
    (h0 : 0 ≤ N) (h1 : N < 2 ^ 31) (hne : E ≠ []) (hnd : E.Nodup)
    (hlen : (E.length : Int) < 2 ^ 64) :
    (select_sample r N E).length = min N.toNat E.length
    ∧ (select_sample r N E).Nodup
    ∧ (E.length ≤ N.toNat →
        select_sample r N E = shuffle_go r 0 E
          ∧ List.Perm (select_sample r N E) E) := by
  have hperm : List.Perm (shuffle_go r 0 E) E := shuffle_go_perm r E.length E rfl 0
  have hslen : (shuffle_go r 0 E).length = E.length := shuffle_go_length r 0 E
  have hsnodup : (shuffle_go r 0 E).Nodup := hperm.nodup_iff.mpr hnd
  have hp64 : (2 : Int) ^ 64 = 18446744073709551616 := by norm_num
  have hp31 : (2 : Int) ^ 31 = 2147483648 := by norm_num
  rw [hp31] at h1
  rw [hp64] at hlen
  have hsN : size_t_of_int N = N.toNat := by
    unfold size_t_of_int
    rw [hp64]
    omega
  have hsn : size_t_of_int ((E.length : Nat) : Int) = E.length := by
    unfold size_t_of_int
    rw [hp64]
    omega
  simp only [select_sample]
  by_cases hgt : size_t_of_int N > E.length
  · rw [if_pos hgt, hsn]
    rw [hsN] at hgt
    have htake : (shuffle_go r 0 E).take E.length = shuffle_go r 0 E := by
      apply List.take_of_length_le
      rw [hslen]
    rw [htake]
    refine ⟨?_, hsnodup, fun _ => ⟨rfl, hperm⟩⟩
    rw [hslen]
    omega
  · rw [if_neg hgt, hsN]
    rw [hsN] at hgt
    refine ⟨?_, ?_, ?_⟩
    · rw [List.length_take, hslen]
    · exact hsnodup.sublist (List.take_sublist _ _)
    · intro hle
      have heq : N.toNat = E.length := by omega
      have htake : (shuffle_go r 0 E).take N.toNat = shuffle_go r 0 E := by
        apply List.take_of_length_le
        rw [hslen, heq]
      rw [htake]
      exact ⟨rfl, hperm⟩

/-- C10: a negative int sample size N converts to a huge size_t, always
exceeds the eligible count, so the clamp resets the sample to the whole
eligible set and all of it is written. -/
theorem c10_negative_sample (r : Nat → Nat) (N : Int) (E : List Str)
    (h0 : -(2 ^ 31) ≤ N) (h1 : N < 0) (hne : E ≠ [])
    (hlen : (E.length : Int) < 2 ^ 63) :
    size_t_of_int N > E.length
    ∧ select_sample r N E = shuffle_go r 0 E
    ∧ (select_sample r N E).length = E.length := by
  have hslen : (shuffle_go r 0 E).length = E.length := shuffle_go_length r 0 E
  have hp64 : (2 : Int) ^ 64 = 18446744073709551616 := by norm_num
  have hp63 : (2 : Int) ^ 63 = 9223372036854775808 := by norm_num
  have hp31 : (2 : Int) ^ 31 = 2147483648 := by norm_num
  rw [hp63] at hlen
  rw [hp31] at h0
  have hgt : size_t_of_int N > E.length := by
    unfold size_t_of_int
    rw [hp64]
    omega
  have hsn : size_t_of_int ((E.length : Nat) : Int) = E.length := by
    unfold size_t_of_int
    rw [hp64]
    omega
  refine ⟨hgt, ?_, ?_⟩
  · simp only [select_sample]
    rw [if_pos hgt, hsn]
    apply List.take_of_length_le
    rw [hslen]
  · simp only [select_sample]
    rw [if_pos hgt, hsn, List.length_take, hslen]
    omega

/-- C8: after load_file the FileStore is consistent: id_to_idx maps
exactly the stored keys, each to the index of its row, and the stored keys
are pairwise distinct. -/
theorem c8_store_invariant (path : Str) (lines : List Str) :
    (∀ k i, hmap_get (load_file_content path lines).id_to_idx k = some i
        ↔ (load_file_content path lines).ids.get? i = some k)
    ∧ (load_file_content path lines).ids.Nodup
    ∧ (∀ k, (hmap_get (load_file_content path lines).id_to_idx k).isSome = true
        ↔ k ∈ (load_file_content path lines).ids) := by
  have h := load_file_content_inv path lines
  exact ⟨h.1, h.nodup, fun k => h.mem_iff k⟩

/-- C4 counterexample: merger2 load_file on a data line whose key field is
empty creates a row whose key is the empty string and indexes it, so an
empty key does end up among the loaded keys. -/
theorem c4_counterexample :
    (load_file_content "f.csv".toList ["id,c".toList, ",x".toList]).ids = [[]]
    ∧ (hmap_get (load_file_content "f.csv".toList ["id,c".toList, ",x".toList]).id_to_idx []).isSome
        = true
    ∧ [] ∈ (load_file_content "f.csv".toList ["id,c".toList, ",x".toList]).ids := by
  exact ⟨by decide, by decide, by decide⟩

/-- C4 amended: merger2 ingestion skips only blank lines, zero-field rows
and rows whose key column is out of range; any other parsed row is
ingested under its key field even when that key is the empty string, and
the key (empty or not) lands in the index. -/
theorem c4_amended (fs : FileStore) (fields : List Str)
    (hn : fields.length ≠ 0) (hc : fs.id_col < fields.length) :
    (hmap_get (load_row fs fields).id_to_idx (fields.getD fs.id_col [])).isSome = true := by
  unfold load_row
  rw [if_neg hn, if_neg (not_le.mpr hc)]
  unfold filestore_get_or_create
  cases hg : hmap_get fs.id_to_idx (fields.getD fs.id_col []) with
  | some v =>
    simp only [hg]
    rfl
  | none =>
    simp only [hg, filestore_add_row]
    rw [hmap_get_put, if_pos rfl]
    rfl

theorem c4_amended_witness :
    (hmap_get (load_row (filestore_init []) [[], ['x']]).id_to_idx
      (([[], ['x']] : List Str).getD (filestore_init []).id_col [])).isSome = true :=
  c4_amended (filestore_init []) [[], ['x']] (by decide) (by decide)

/-- The decimal value of a digit string, most significant digit first. -/
def digits_val (ds : Str) : Nat :=
  ds.foldl (fun y c => y * 10 + (c.toNat - '0'.toNat)) 0

theorem year_loop_zero (s : Str) (y : Nat) : year_loop s 0 y = y := by
  cases s <;> rfl

theorem year_loop_nil_succ (n y : Nat) : year_loop [] (n + 1) y = y := rfl

theorem year_loop_cons (c : Char) (rest : Str) (n y : Nat) :
    year_loop (c :: rest) (n + 1) y
      = if c.isDigit then year_loop rest n (y * 10 + (c.toNat - '0'.toNat)) else y := rfl

theorem year_loop_digits (s : Str) :
    ∀ (t : Str) (fuel acc : Nat),
      (∀ c ∈ s, c.isDigit = true) → s.length ≤ fuel →
      (fuel ≤ s.length ∨ t = [] ∨ (∃ c rs, t = c :: rs ∧ c.isDigit = false)) →
      year_loop (s ++ t) fuel acc
        = s.foldl (fun y c => y * 10 + (c.toNat - '0'.toNat)) acc := by
  induction s with
  | nil =>
    intro t fuel acc _ _ hstop
    rw [List.nil_append, List.foldl_nil]
    rcases hstop with hf | ht | ⟨c, rs, hts, hcd⟩
    · rw [List.length_nil] at hf
      have : fuel = 0 := by omega
      rw [this, year_loop_zero]
    · rw [ht]
      cases fuel with
      | zero => rw [year_loop_zero]
      | succ n => rw [year_loop_nil_succ]
    · rw [hts]
      cases fuel with
      | zero => rw [year_loop_zero]
      | succ n => rw [year_loop_cons, if_neg (by rw [hcd]; exact Bool.false_ne_true)]
  | cons c s' ih =>
    intro t fuel acc hd hle hstop
    cases fuel with
    | zero =>
      exfalso
      rw [List.length_cons] at hle
      omega
    | succ n =>
      rw [List.cons_append, year_loop_cons, if_pos (hd c (List.mem_cons_self c s')),
        List.foldl_cons]
      apply ih t n _ (fun c2 hc2 => hd c2 (List.mem_cons_of_mem c hc2))
      · rw [List.length_cons] at hle
        omega
      · rcases hstop with hf | ht | hcons
        · left
          rw [List.length_cons] at hf
          omega
        · right; left; exact ht
        · right; right; exact hcons

theorem strstr_drop_prepend (pat s : Str) : strstr_drop (pat ++ s) pat = some s := by
  unfold strstr_drop
  rw [if_pos ?hpf]
  case hpf =>
    rw [List.isPrefixOf_iff_prefix]
    exact List.prefix_append pat s
  rw [List.drop_left]

theorem load_row_header_fields (fs : FileStore) (fields : List Str) :
    (load_row fs fields).is_claim = fs.is_claim
      ∧ (load_row fs fields).claim_year = fs.claim_year := by
  unfold load_row
  by_cases h0 : fields.length = 0
  · rw [if_pos h0]
    exact ⟨rfl, rfl⟩
  · rw [if_neg h0]
    by_cases h1 : fields.length ≤ fs.id_col
    · rw [if_pos h1]
      exact ⟨rfl, rfl⟩
    · rw [if_neg h1]
      unfold filestore_get_or_create
      cases hg : hmap_get fs.id_to_idx (fields.getD fs.id_col []) with
      | some v =>
        simp only [hg]
        exact ⟨trivial, trivial⟩
      | none =>
        simp only [hg, filestore_add_row]
        exact ⟨trivial, trivial⟩

theorem load_fold_header_fields (ls : List Str) :
    ∀ fs : FileStore, (ls.foldl load_data_line fs).is_claim = fs.is_claim
      ∧ (ls.foldl load_data_line fs).claim_year = fs.claim_year := by
  induction ls with
  | nil => intro fs; exact ⟨rfl, rfl⟩
  | cons l rest ih =>
    intro fs
    rw [List.foldl_cons]
    have hstep : (load_data_line fs l).is_claim = fs.is_claim
        ∧ (load_data_line fs l).claim_year = fs.claim_year := by
      unfold load_data_line
      by_cases hb : trim_eol l = []
      · rw [if_pos hb]
        exact ⟨rfl, rfl⟩
      · rw [if_neg hb]
        exact load_row_header_fields fs (parse_delim_line (trim_eol l) fs.delim)
    obtain ⟨ih1, ih2⟩ := ih (load_data_line fs l)
    exact ⟨ih1.trans hstep.1, ih2.trans hstep.2⟩

/-- C5 counterexample: a stem with claims_ followed by only two digits is
parsed to year 12 and the file IS categorized as a claims file, and a stem
with claims_ followed by the four digits 0000 is parsed to year 0 and the
file stays primary. -/
theorem c5_counterexample :
    parse_claim_year_from_name "claims_12x.csv".toList = 12
    ∧ (load_file_content "claims_12x.csv".toList ["id".toList]).is_claim = true
    ∧ parse_claim_year_from_name "claims_0000.csv".toList = 0
    ∧ (load_file_content "claims_0000.csv".toList ["id".toList]).is_claim = false := by
  exact ⟨by decide, by decide, by decide, by decide⟩

/-- C5 amended: the scan over the lowercased stem uses the first claims_
occurrence; when at least one digit follows it, the year is the value of
up to the first four following digits (so one to three digits still
produce a year, and a file is categorized Claims exactly when the parsed
year value is positive, so claims_0000 stays Primary). -/
theorem c5_amended (ds rest : Str) (hne : ds ≠ [])
    (hd : ∀ c ∈ ds, c.isDigit = true)
    (hstop : 4 ≤ ds.length ∨ rest = [] ∨ (∃ c rs, rest = c :: rs ∧ c.isDigit = false)) :
    claim_year_scan ("claims_".toList ++ (ds ++ rest)) = digits_val (ds.take 4)
    ∧ (∀ (path : Str) (h : Str) (t : List Str),
        (load_file_content path (h :: t)).is_claim
            = decide (0 < parse_claim_year_from_name path)
          ∧ (load_file_content path (h :: t)).claim_year
            = parse_claim_year_from_name path) := by
  constructor
  · cases ds with
    | nil => exact absurd rfl hne
    | cons d ds' =>
      unfold claim_year_scan
      rw [strstr_drop_prepend]
      show (if d.isDigit then year_loop ((d :: ds') ++ rest) 4 0 else 0) = _
      rw [if_pos (hd d (List.mem_cons_self d ds'))]
      have hsplit : (d :: ds') ++ rest
          = ((d :: ds').take 4) ++ (((d :: ds').drop 4) ++ rest) := by
        rw [← List.append_assoc, List.take_append_drop]
      rw [hsplit]
      rw [year_loop_digits ((d :: ds').take 4) (((d :: ds').drop 4) ++ rest) 4 0
        (fun c hc => hd c (List.take_subset 4 (d :: ds') hc))
        (by rw [List.length_take]; omega) ?hstop2]
      · rfl
      case hstop2 =>
        by_cases hlen4 : 4 ≤ (d :: ds').length
        · left
          rw [List.length_take]
          omega
        · have hdrop : (d :: ds').drop 4 = [] := List.drop_eq_nil_of_le (by omega)
          rw [hdrop, List.nil_append]
          rcases hstop with hf | ht | hcons
          · exact absurd hf hlen4
          · right; left; exact ht
          · right; right; exact hcons
  · intro path h t
    have hred : ∃ fs1 : FileStore,
        load_file_content path (h :: t) = t.foldl load_data_line fs1
          ∧ fs1.is_claim = decide (0 < parse_claim_year_from_name path)
          ∧ fs1.claim_year = parse_claim_year_from_name path :=
      ⟨_, rfl, rfl, rfl⟩
    obtain ⟨fs1, heq, hclaim, hyear⟩ := hred
    rw [heq]
    obtain ⟨hf1, hf2⟩ := load_fold_header_fields t fs1
    exact ⟨hf1.trans hclaim, hf2.trans hyear⟩

/-- C6 counterexample: merger2 write_rows emits a merged cell containing
the output delimiter raw, with no quoting at all, although the quoting
rule classifies it as needing quotes; the data line round-tripped through
merger2 comes out corrupted as three columns. -/
theorem c6_counterexample :
    write_rows_line [load_file_content "f.csv".toList ["id,c".toList, "x,\"a,b\"".toList]] ['x']
      = "x,a,b".toList
    ∧ needs_quotes "a,b".toList = true
    ∧ ('"' ∈ write_rows_line
          [load_file_content "f.csv".toList ["id,c".toList, "x,\"a,b\"".toList]] ['x'])
        = False := by
  refine ⟨by decide, by decide, ?_⟩
  simp only [eq_iff_iff, iff_false]
  decide

/-- C6 amended: code3's print_csv_field implements the rule exactly (raw
iff no delimiter, quote, LF or CR; otherwise quote-wrapped with internal
quotes doubled so that collapsing doubled quotes recovers the value), but
merger2's write_rows writes every cell raw, unquoted, whatever it
contains. -/
theorem c6_amended :
    (∀ s : Str, needs_quotes s = false → print_csv_field s = s)
    ∧ (∀ s : Str, needs_quotes s = true →
        print_csv_field s = '"' :: (escape_quotes s ++ ['"'])
          ∧ unescape_quotes (escape_quotes s) = s)
    ∧ (∀ s : Str, needs_quotes s = true ↔ (',' ∈ s ∨ '"' ∈ s ∨ '\n' ∈ s ∨ '\r' ∈ s))
    ∧ (∀ (id cell : Str) (fs : FileStore),
        fs.n_nonid = 1 → fs.cells = [[some cell]] → hmap_get fs.id_to_idx id = some 0 →
        write_rows_line [fs] id = id ++ ',' :: cell) := by
  refine ⟨?_, ?_, needs_quotes_iff, ?_⟩
  · intro s hs
    unfold print_csv_field
    rw [hs]
    rfl
  · intro s hs
    refine ⟨?_, unescape_escape s⟩
    unfold print_csv_field
    rw [hs]
    rfl
  · intro id cell fs h1 h2 h3
    unfold write_rows_line
    rw [List.foldl_cons, List.foldl_nil, h3, h1, h2]
    have hr : List.range 1 = [0] := rfl
    rw [hr]
    simp

/-- C9 counterexample: in a two-file merger2 run where the second file
cannot be opened, the whole run aborts with exit code 1 instead of
skipping the file. -/
theorem c9_counterexample :
    merger2_load_all [("a.csv".toList, some ["id".toList]), ("b.csv".toList, none)]
      = Except.error 1 := rfl

theorem merger2_load_go_error (inputs : List (Str × Option (List Str))) :
    ∀ acc, (∃ e ∈ inputs, e.2 = none) → merger2_load_go inputs acc = Except.error 1 := by
  induction inputs with
  | nil =>
    intro acc h
    rcases h with ⟨e, hmem, _⟩
    exact absurd hmem (List.not_mem_nil e)
  | cons pc rest ih =>
    intro acc h
    rcases pc with ⟨p, c⟩
    cases c with
    | none => rfl
    | some ls =>
      rw [show merger2_load_go ((p, some ls) :: rest) acc
          = merger2_load_go rest (load_file_content p ls :: acc) from rfl]
      apply ih
      rcases h with ⟨e, hmem, he⟩
      rcases List.mem_cons.mp hmem with heq | hmem2
      · rw [heq] at he
        cases he
      · exact ⟨e, hmem2, he⟩

/-- C9 amended: merger2 aborts the entire run with exit code 1 as soon as
any input file cannot be opened, even in a multi-file run; the code3
variant is the one that skips an unopenable input and continues, its
result being the same as if that input were absent. -/
theorem c9_amended :
    (∀ inputs : List (Str × Option (List Str)),
        (∃ e ∈ inputs, e.2 = none) → merger2_load_all inputs = Except.error 1)
    ∧ (∀ (σ : Type) (step : σ → List Str → σ) (st : σ)
          (pre post : List (Option (List Str))),
        code3_merge_loop step st (pre ++ none :: post) = code3_merge_loop step st (pre ++ post)) := by
  constructor
  · intro inputs h
    exact merger2_load_go_error inputs [] h
  · intro σ step st pre post
    induction pre generalizing st with
    | nil => rfl
    | cons o pre' ih =>
      cases o with
      | none =>
        rw [List.cons_append, List.cons_append]
        show code3_merge_loop step st (pre' ++ none :: post) = code3_merge_loop step st (pre' ++ post)
        exact ih st
      | some c =>
        rw [List.cons_append, List.cons_append]
        show code3_merge_loop step (step st c) (pre' ++ none :: post)
          = code3_merge_loop step (step st c) (pre' ++ post)
        exact ih (step st c)

/-- Concrete primary table a.csv with keys 1 and 2. -/
def fsA : FileStore :=
  load_file_content "a.csv".toList ["id,x".toList, "1,foo".toList, "2,bar".toList]

/-- Concrete primary table b.csv with keys 1 and 3. -/
def fsB : FileStore :=
  load_file_content "b.csv".toList ["id,y".toList, "1,baz".toList, "3,qux".toList]

theorem c1_eligible_set_witness :
    "1".toList ∈ build_eligible_ids [fsA, fsB]
      ∧ ¬ "2".toList ∈ build_eligible_ids [fsA, fsB] := by
  have hinv : ∀ fs ∈ [fsA, fsB], StoreInv fs := by
    intro fs hmem
    rcases List.mem_cons.mp hmem with heq | hmem2
    · rw [heq]; exact load_file_content_inv _ _
    · rcases List.mem_cons.mp hmem2 with heq2 | h3
      · rw [heq2]; exact load_file_content_inv _ _
      · exact absurd h3 (List.not_mem_nil fs)
  have h := (c1_eligible_set [fsA, fsB] hinv).2.2.2 fsA fsB
    (load_file_content_inv _ _) (load_file_content_inv _ _) (by decide) (by decide)
  constructor
  · exact (h "1".toList).mpr (by decide)
  · intro hmem
    exact absurd ((h "2".toList).mp hmem) (by decide)

/-- Concrete table f.csv holding one row with key P1 and cell alpha. -/
def fsW : FileStore :=
  load_file_content "f.csv".toList ["id,c".toList, "P1,alpha".toList]

theorem c2_duplicate_key_merge_witness :
    (["alpha".toList, ([] : Str), "beta".toList].foldl append_cell_merge none
      = (if ((["alpha".toList, ([] : Str), "beta".toList].filter (fun v => !v.isEmpty)).isEmpty)
          then none
          else some (sep_join
            (["alpha".toList, ([] : Str), "beta".toList].filter (fun v => !v.isEmpty)))))
    ∧ (load_row fsW ["P1".toList, "beta".toList]).ids = fsW.ids := by
  refine ⟨(c2_duplicate_key_merge (["alpha".toList, ([] : Str), "beta".toList])).1, ?_⟩
  exact ((c2_duplicate_key_merge []).2.2.2.2.1 fsW ["P1".toList, "beta".toList] 0
    (by decide) (by decide) (by decide)).1

theorem c3_sampling_bound_witness :
    (select_sample (fun _ => 0) 3 [['a'], ['b']]).length = min (Int.toNat 3) 2
    ∧ (select_sample (fun _ => 0) 3 [['a'], ['b']]).Nodup
    ∧ (2 ≤ Int.toNat 3 →
        select_sample (fun _ => 0) 3 [['a'], ['b']] = shuffle_go (fun _ => 0) 0 [['a'], ['b']]
          ∧ List.Perm (select_sample (fun _ => 0) 3 [['a'], ['b']]) [['a'], ['b']]) :=
  c3_sampling_bound (fun _ => 0) 3 [['a'], ['b']]
    (by norm_num) (by norm_num) (by decide) (by decide) (by norm_num)

theorem c5_amended_witness :
    claim_year_scan ("claims_".toList ++ (['1', '2'] ++ ['x'])) = digits_val (['1', '2'].take 4) :=
  (c5_amended ['1', '2'] ['x'] (by decide) (by decide)
    (Or.inr (Or.inr ⟨'x', [], rfl, by decide⟩))).1

theorem c10_negative_sample_witness :
    size_t_of_int (-1) > 1
    ∧ select_sample (fun _ => 0) (-1) [['a']] = shuffle_go (fun _ => 0) 0 [['a']]
    ∧ (select_sample (fun _ => 0) (-1) [['a']]).length = 1 :=
  c10_negative_sample (fun _ => 0) (-1) [['a']]
    (by norm_num) (by norm_num) (by decide) (by norm_num)

end MergeEngine
